import Mathlib

/-!
Verification of the resume-optimizer core (`optimize_resume.py`) against its
natural-language specification.

Shallow embedding conventions:
* Python strings are `List Char`; Python floats are embedded as exact
  rationals `ℚ`.
* Python dicts (which preserve insertion order) are association lists
  `List (key × value)`; all dict keys arising in the program are distinct.
* Fallible Python code (raising `ZeroDivisionError` / `KeyError`) is modelled
  with `Option` / `Except PyError`.
* The external regex engine's URL matcher (`re.findall(URL_REGEX, ·)`) is a
  parameter of the segmenter; the two small contact regexes (phone, email)
  are implemented concretely for ASCII input.
-/

namespace ResumeOpt

/-- Errors raised by the Python code that the embedding tracks. -/
inductive PyError where
  | keyError
  | zeroDivisionError
deriving DecidableEq

deriving instance DecidableEq for Except

/-- Keys of `ResumeOptimizer.CONTACT_REGEX`, in insertion order (phone, email). -/
inductive ContactKey where
  | phone
  | email
deriving DecidableEq

/-- Whether `pat` is an initial segment of `s` (used for literal substring search). -/
def startsWith : List Char → List Char → Bool
  | _, [] => true
  | [], _ :: _ => false
  | c :: cs, d :: ds => c == d && startsWith cs ds

/-- Python's `needle in hay` literal substring test. -/
def containsSub : List Char → List Char → Bool
  | [], needle => needle.isEmpty
  | h :: t, needle => startsWith (h :: t) needle || containsSub t needle

/-- Count of non-overlapping occurrences of a non-empty `needle`, scanning
left to right (the core of Python's `str.count`).  The fuel argument makes the
recursion structural: every step consumes at least one character of the
haystack, so fuel `hay.length` never runs out and the fuel-0 branch is
unreachable. -/
def countOccFuel (needle : List Char) : Nat → List Char → Nat
  | 0, _ => 0
  | _ + 1, [] => 0
  | fuel + 1, c :: rest =>
    if startsWith (c :: rest) needle then
      1 + countOccFuel needle fuel (rest.drop (needle.length - 1))
    else countOccFuel needle fuel rest

/-- Python's `hay.count(needle)` (for an empty needle Python returns `len+1`). -/
def countSubstr (hay needle : List Char) : Nat :=
  if needle.isEmpty then hay.length + 1 else countOccFuel needle hay.length hay

/-- Drop every non-overlapping occurrence of `needle`, scanning left to right
(the core of Python's `str.replace(needle, "")`); fuel as in `countOccFuel`. -/
def removeOccFuel (needle : List Char) : Nat → List Char → List Char
  | 0, l => l
  | _ + 1, [] => []
  | fuel + 1, c :: rest =>
    if startsWith (c :: rest) needle then
      removeOccFuel needle fuel (rest.drop (needle.length - 1))
    else c :: removeOccFuel needle fuel rest

/-- Python's `s.replace(target, "")` (identity for an empty target). -/
def replaceAll (s target : List Char) : List Char :=
  if target.isEmpty then s else removeOccFuel target s.length s

/-- Python's `str.lower()` on the embedded string. -/
def toLowerL (s : List Char) : List Char := s.map Char.toLower

/-- Character class `\w` of the word regex `\b\w+\b` (ASCII fragment). -/
def isWordChar (c : Char) : Bool := c.isAlphanum || c == '_'

/-- Count maximal runs of word characters; the flag records whether the
previous character was a word character. -/
def countRuns : Bool → List Char → Nat
  | _, [] => 0
  | inWord, c :: rest =>
    if isWordChar c then (if inWord then 0 else 1) + countRuns true rest
    else countRuns false rest

/-- Number of `\b\w+\b` word tokens, i.e. `len(re.findall(WORD_REGEX, s))`. -/
def wordCount (s : List Char) : Nat := countRuns false s

/-- Python's `round()` on an exact rational: round half to even. -/
def pythonRound (q : ℚ) : ℤ :=
  if q - (⌊q⌋ : ℚ) < 1/2 then ⌊q⌋
  else if (1:ℚ)/2 < q - (⌊q⌋ : ℚ) then ⌊q⌋ + 1
  else if ⌊q⌋ % 2 = 0 then ⌊q⌋ else ⌊q⌋ + 1

/-- Python's `str.splitlines()` restricted to `\n` separators: like
`List.splitOn` but without a trailing empty chunk. -/
def splitLines (s : List Char) : List (List Char) :=
  let parts := s.splitOn '\n'
  if s.getLast? = some '\n' ∨ s = [] then parts.dropLast else parts

/-- Character class `[a-zA-Z0-9._%+-]` of the local part of the email regex. -/
def isLocalChar (c : Char) : Bool :=
  c.isAlphanum || c == '.' || c == '_' || c == '%' || c == '+' || c == '-'

/-- Character class `[a-zA-Z0-9.-]` of the domain part of the email regex. -/
def isDomainChar (c : Char) : Bool := c.isAlphanum || c == '.' || c == '-'

/-- Final backtracking step of the email regex `[a-zA-Z0-9.-]+\.[a-zA-Z]{2,3}`
on the maximal domain-character run `R`: the greedy `+` yields back characters
until it stops on a dot followed by two or three letters, so the match uses the
largest index `k ≥ 1` with `R[k] = '.'` followed by at least two letters; the
`{2,3}` then greedily takes up to three letters.  Returns `(k, tail length)`. -/
def emailDotSplit (R : List Char) : Option (Nat × Nat) :=
  (List.range R.length).reverse.findSome? (fun k =>
    if 1 ≤ k ∧ R.get? k = some '.' then
      let t := ((R.drop (k + 1)).takeWhile Char.isAlpha).length
      if 2 ≤ t then some (k, min 3 t) else none
    else none)

/-- Length of the match of `CONTACT_REGEX["email"]`
(`[a-zA-Z0-9._%+-]+@[a-zA-Z0-9.-]+\.[a-zA-Z]{2,3}`) anchored at the start of
`s`, if any (semantics of `re.match`). -/
def emailAt (s : List Char) : Option Nat :=
  let lrun := (s.takeWhile isLocalChar).length
  if lrun = 0 then none
  else
    match s.drop lrun with
    | '@' :: rest =>
      let R := rest.takeWhile isDomainChar
      (emailDotSplit R).map (fun p => lrun + 1 + p.1 + 1 + p.2)
    | _ => none

/-- First (leftmost) match of the email regex in `s`:
`re.findall(CONTACT_REGEX["email"], s)[0]`. -/
def emailFind : List Char → Option (List Char)
  | [] => none
  | c :: rest =>
    match emailAt (c :: rest) with
    | some n => some ((c :: rest).take n)
    | none => emailFind rest

/-- Character class `[0-9 .\-\(\)]` of the middle of the phone regex. -/
def isPhoneBody (c : Char) : Bool :=
  c.isDigit || c == ' ' || c == '.' || c == '-' || c == '(' || c == ')'

/-- Final backtracking step of `[0-9 .\-\(\)]{8,}[0-9]` on the maximal
body-character run `R`: the largest index `m ≥ 8` with `R[m]` a digit. -/
def phoneEnd (R : List Char) : Option Nat :=
  (List.range R.length).reverse.findSome? (fun m =>
    if 8 ≤ m then
      match R.get? m with
      | some c => if c.isDigit then some m else none
      | none => none
    else none)

/-- Length of the match of `CONTACT_REGEX["phone"]`
(`[\+\(]?[1-9][0-9 .\-\(\)]{8,}[0-9]`) anchored at the start of `s`, if any. -/
def phoneAt (s : List Char) : Option Nat :=
  let pre : Nat × List Char :=
    match s with
    | c :: rest => if c == '+' || c == '(' then (1, rest) else (0, s)
    | [] => (0, [])
  match pre.2 with
  | c :: rest =>
    if '1' ≤ c ∧ c ≤ '9' then
      (phoneEnd (rest.takeWhile isPhoneBody)).map (fun m => pre.1 + 1 + m + 1)
    else none
  | [] => none

/-- First (leftmost) match of the phone regex in `s`:
`re.findall(CONTACT_REGEX["phone"], s)[0]`. -/
def phoneFind : List Char → Option (List Char)
  | [] => none
  | c :: rest =>
    match phoneAt (c :: rest) with
    | some n => some ((c :: rest).take n)
    | none => phoneFind rest

/-- First match of `CONTACT_REGEX[key]` in the text, if any
(`re.findall(...)[0]` in `__process_header`). -/
def contactFind : ContactKey → List Char → Option (List Char)
  | .phone, s => phoneFind s
  | .email, s => emailFind s

/-- Lookup in an insertion-ordered dict (first entry with the given key). -/
def dictGet {α : Type} : List (List Char × α) → List Char → Option α
  | [], _ => none
  | (k, v) :: rest, key => if k = key then some v else dictGet rest key

/-- Keys of an insertion-ordered dict. -/
def dictKeys {α : Type} (d : List (List Char × α)) : List (List Char) :=
  d.map Prod.fst

/-- Python dict assignment `d[k] = v`: overwrite in place if the key exists,
else append. -/
def dictInsert (d : List (List Char × ℚ)) (k : List Char) (v : ℚ) :
    List (List Char × ℚ) :=
  if d.any (fun p => p.1 == k) then d.map (fun p => if p.1 = k then (k, v) else p)
  else d ++ [(k, v)]

/-- Python `d[k] += v` where the key is known to be present. -/
def dictAdd (d : List (List Char × ℚ)) (k : List Char) (v : ℚ) :
    List (List Char × ℚ) :=
  d.map (fun p => if p.1 = k then (p.1, p.2 + v) else p)

/-- Python `sections[k].append(line)`. -/
def dictAppendLine (d : List (List Char × List (List Char))) (k : List Char)
    (line : List Char) : List (List Char × List (List Char)) :=
  d.map (fun p => if p.1 = k then (p.1, p.2 ++ [line]) else p)

/-- Index of the first entry of the mutable job-term list equal to `some term`
(`job_keyword_text.index(term)`, where consumed entries have been overwritten
with `False` and are modelled as `none`). -/
def findLiveIdx : List (Option (List Char)) → List Char → Option Nat
  | [], _ => none
  | x :: rest, term =>
    if x = some term then some 0 else (findLiveIdx rest term).map (· + 1)

/-- Score of the job keyphrase at position `i` (`job_keywords[match_index][1]`). -/
def jobScoreAt (jobKeywords : List (List Char × ℚ)) (i : Nat) : ℚ :=
  ((jobKeywords.get? i).map Prod.snd).getD 0

/-- Result of `CompareResume.compare()`: the private attributes it updates. -/
structure CompareResult where
  matchesDict : List (List Char × ℚ)
  matchPoints : ℚ
  maxPoints : ℚ
deriving DecidableEq

/-- Match loop of `CompareResume.compare()`: for each resume keyphrase whose
term occurs at a live position of the job-term list, consume the first live
position, record the combined value, and accumulate match and max points. -/
def compareLoop (jobKeywords : List (List Char × ℚ)) :
    List (List Char × ℚ) → List (Option (List Char)) → List (List Char × ℚ) →
    ℚ → ℚ → List (List Char × ℚ) × ℚ × ℚ
  | [], _, ms, mp, maxp => (ms, mp, maxp)
  | (term, score) :: rest, jobText, ms, mp, maxp =>
    match findLiveIdx jobText term with
    | some i =>
      let mv := score + jobScoreAt jobKeywords i
      compareLoop jobKeywords rest (jobText.set i none)
        (dictInsert ms term mv) (mp + mv) (maxp + score)
    | none => compareLoop jobKeywords rest jobText ms mp maxp

/-- `CompareResume.compare()` as a function of the two keyphrase lists returned
by the external extractor: seeds `max_points` with the sum of all job scores,
runs the match loop, and finally halves `max_points`. -/
def compare (resumeKeywords jobKeywords : List (List Char × ℚ)) : CompareResult :=
  let r := compareLoop jobKeywords resumeKeywords
    (jobKeywords.map (fun p => some p.1)) [] 0 ((jobKeywords.map Prod.snd).sum)
  ⟨r.1, r.2.1, r.2.2 / 2⟩

/-- Match events of the compare loop, following the spec's description of the
algorithm: for each resume keyphrase in order, if its term occurs at a live
(not yet consumed) position of the job-term list, the first such position is
consumed and the event records the resume entry with that position. -/
def matchEvents : List (List Char × ℚ) → List (Option (List Char)) →
    List ((List Char × ℚ) × Nat)
  | [], _ => []
  | (term, score) :: rest, jobText =>
    match findLiveIdx jobText term with
    | some i => ((term, score), i) :: matchEvents rest (jobText.set i none)
    | none => matchEvents rest jobText

/-- Combined value of a match event: resume-side score plus the job-side score
at the consumed position. -/
def eventValue (jobKeywords : List (List Char × ℚ)) (e : (List Char × ℚ) × Nat) : ℚ :=
  e.1.2 + jobScoreAt jobKeywords e.2

/-- Word-count scale factor of `CompareResume.to_count`:
`len(findall(WORD_REGEX, job.lower())) / len(findall(WORD_REGEX, resume.lower()))`. -/
def wordScale (resumeString jobString : List Char) : ℚ :=
  (wordCount (toLowerL jobString) : ℚ) / (wordCount (toLowerL resumeString) : ℚ)

/-- Per-keyword difference of `CompareResume.to_count`:
`round(job_count - resume_count * ratio)` with literal substring counts on the
lowercased strings. -/
def keywordDeficit (resumeString jobString kw : List Char) : ℤ :=
  pythonRound ((countSubstr (toLowerL jobString) kw : ℚ)
    - (countSubstr (toLowerL resumeString) kw : ℚ) * wordScale resumeString jobString)

/-- Keyword loop of `CompareResume.to_count`: keep the keywords whose
difference is strictly positive, in dict order. -/
def toCountLoop (resumeString jobString : List Char) :
    List (List Char × ℚ) → List (List Char × ℤ)
  | [] => []
  | (kw, _) :: rest =>
    if 0 < keywordDeficit resumeString jobString kw then
      (kw, keywordDeficit resumeString jobString kw) :: toCountLoop resumeString jobString rest
    else toCountLoop resumeString jobString rest

/-- `CompareResume.to_count(keywords_dict)`: computes the word-count scale
factor first — raising `ZeroDivisionError` (modelled as `none`) when the
resume string has no word token — and then filters the keywords. -/
def toCount (resumeString jobString : List Char)
    (keywordsDict : List (List Char × ℚ)) : Option (List (List Char × ℤ)) :=
  if wordCount (toLowerL resumeString) = 0 then none
  else some (toCountLoop resumeString jobString keywordsDict)

/-- `ResumeOptimizer.SECTION_IDENTIFIERS`. -/
def SECTION_IDENTIFIERS : List (List (List Char)) :=
  [["about".data, "profile".data, "introduction".data, "summary".data, "objective".data],
   ["education".data, "school".data, "academic".data],
   ["qualification".data, "skill".data, "credential".data, "certification".data,
    "certificate".data],
   ["experience".data, "history".data, "project".data, "work".data]]

/-- `ResumeOptimizer.SECTION_WEIGHTS`. -/
def SECTION_WEIGHTS : List (List Char × ℚ) :=
  [("header".data, 1), ("education".data, 1), ("about".data, 2),
   ("qualification".data, 4), ("experience".data, 4)]

/-- `"\n".join(section_list)`. -/
def joinNL : List (List Char) → List Char
  | [] => []
  | [x] => x
  | x :: y :: rest => x ++ '\n' :: joinNL (y :: rest)

/-- `ResumeOptimizer.get_compare_string(parse_results, keys)`: concatenation of
`text + "\n"` over the sections named in `keys`, in order. -/
def getCompareString (parseResults : List (List Char × List (List Char)))
    (keys : List (List Char)) : List Char :=
  (keys.map (fun k =>
    (((dictGet parseResults k).getD []).map (fun t => t ++ ['\n'])).flatten)).flatten

/-- Keyword loop of `ResumeOptimizer.apply_weights` for one section: for each
keyword of the original dict, compare the substring count in this section's
text against the count in the global compare string, and add
`section_weight * value * (section_count / total_count)` to the weighted dict.
The flag records whether any keyword occurred in the section.  In Python the
division `section_count / total_counts[keyword]` is only reached with
`section_count > 0`, and the section text is a contiguous substring of the
compare string, so `total_count` is then positive and cannot raise. -/
def weightKeywords (compareString sectionString : List Char) (sectionW : ℚ) :
    List (List Char × ℚ) → List (List Char × ℚ) → Bool →
    List (List Char × ℚ) × Bool
  | [], wd, applied => (wd, applied)
  | (kw, value) :: rest, wd, applied =>
    let sectionCount := countSubstr sectionString kw
    if 0 < sectionCount then
      weightKeywords compareString sectionString sectionW rest
        (dictAdd wd kw (sectionW * value *
          ((sectionCount : ℚ) / (countSubstr compareString kw : ℚ)))) true
    else weightKeywords compareString sectionString sectionW rest wd applied

/-- Section loop of `ResumeOptimizer.apply_weights`: skip empty sections, look
up the section weight (`KeyError` if absent), run the keyword loop, and add the
section weight to the total when the section applied. -/
def weightSections (compareString : List Char) (keywordValues : List (List Char × ℚ)) :
    List (List Char × List (List Char)) → List (List Char × ℚ) → ℚ →
    Except PyError (List (List Char × ℚ) × ℚ)
  | [], wd, tw => .ok (wd, tw)
  | (name, sectionList) :: rest, wd, tw =>
    if 0 < sectionList.length then
      match dictGet SECTION_WEIGHTS name with
      | none => .error .keyError
      | some w =>
        let r := weightKeywords compareString (toLowerL (joinNL sectionList)) w
          keywordValues wd false
        weightSections compareString keywordValues rest r.1 (if r.2 then tw + w else tw)
    else weightSections compareString keywordValues rest wd tw

/-- `ResumeOptimizer.apply_weights(sections, keyword_values)`: weight the
keyword dict by section, then divide every entry by the total applied weight.
The final division loop iterates over the weighted dict, so with a non-empty
dict and a zero total weight Python raises `ZeroDivisionError`; with an empty
dict the loop body never runs. -/
def applyWeights (sections : List (List Char × List (List Char)))
    (keywordValues : List (List Char × ℚ)) :
    Except PyError (List (List Char × ℚ)) :=
  let compareString := toLowerL (getCompareString sections (dictKeys sections))
  match weightSections compareString keywordValues sections keywordValues 0 with
  | .error e => .error e
  | .ok (wd, tw) =>
    match wd with
    | [] => .ok []
    | _ :: _ =>
      if tw = 0 then .error .zeroDivisionError
      else .ok (wd.map (fun p => (p.1, p.2 / tw)))

/-- `ResumeOptimizer.MISSED_THRESHOLD` (the float literal 0.7 embedded exactly). -/
def MISSED_THRESHOLD : ℚ := 7 / 10

/-- `ResumeOptimizer.MAX_UNDERUSED`. -/
def MAX_UNDERUSED : Nat := 20

/-- Final-score computation of `ResumeOptimizer.analyze` (lines 592–602) as a
function of the two weighted totals. -/
def analyzeScore (matchedTotal missedTotal : ℚ) : ℚ :=
  if matchedTotal < missedTotal then matchedTotal / missedTotal
  else if 0 < missedTotal + matchedTotal then matchedTotal / (missedTotal + matchedTotal)
  else 0

/-- Underused-keyword computation of `ResumeOptimizer.analyze` (lines 603–616):
choose the source dict by the 0.7 threshold, run `to_count` on it, sort the
result by value in descending order (Python's `sorted` is stable), and keep at
most `MAX_UNDERUSED` entries.  `resumeString`/`jobString` are the comparison
strings held by the `CompareResume` object. -/
def buildUnderused (resumeString jobString : List Char) (matchPercentage : ℚ)
    (matchedWeighted missedWeighted : List (List Char × ℚ)) :
    Except PyError (List (List Char × ℤ)) :=
  let chosen := if MISSED_THRESHOLD ≤ matchPercentage then matchedWeighted
    else missedWeighted
  match toCount resumeString jobString chosen with
  | none => .error .zeroDivisionError
  | some u => .ok ((u.mergeSort (fun a b => decide (b.2 ≤ a.2))).take MAX_UNDERUSED)

/-- Contact-extraction state of a `ResumeOptimizer` object:
`__missing_contact_info` and `__contact_info`. -/
structure ContactState where
  missing : List ContactKey
  info : List (ContactKey × List Char)
deriving DecidableEq

/-- Loop body of `__process_header` over the still-missing contact keys:
search the (progressively stripped) text for the key's pattern; on a match
record the matched substring, remove every occurrence of it from the text, and
note the key as found. -/
def contactStep (acc : List Char × List (ContactKey × List Char) × List ContactKey)
    (key : ContactKey) : List Char × List (ContactKey × List Char) × List ContactKey :=
  match contactFind key acc.1 with
  | some m => (replaceAll acc.1 m, acc.2.1 ++ [(key, m)], acc.2.2 ++ [key])
  | none => acc

/-- `ResumeOptimizer.__process_header(text)`: when contact info is still
missing, run the contact pass, drop the found keys from the missing list, and
signal a new section exactly when some contact info has ever been recorded but
none was found on this line; when nothing is missing, always signal a new
section. -/
def processHeader (st : ContactState) (text : List Char) :
    List Char × ContactState × Bool :=
  if st.missing.isEmpty then (text, st, true)
  else
    let r := st.missing.foldl contactStep (text, st.info, [])
    (r.1, ⟨st.missing.filter (fun k => ¬ r.2.2.contains k), r.2.1⟩,
      decide (0 < r.2.1.length) && r.2.2.isEmpty)

/-- `ResumeOptimizer.__extract_urls(text)`: for each URL the engine finds in
the incoming text, if it does not match the email pattern from the start
(`re.match`) and is not already recorded, record it and strip every occurrence
from the text.  `urlF` is the external regex engine's
`re.findall(URL_REGEX, ·)`. -/
def extractUrls (urlF : List Char → List (List Char))
    (urls : List (List Char)) (text : List Char) :
    List Char × List (List Char) :=
  (urlF text).foldl (fun acc u =>
    if (emailAt u).isSome = false ∧ ¬ u ∈ acc.2 then (replaceAll acc.1 u, acc.2 ++ [u])
    else acc) (text, urls)

/-- Group loop of `ResumeOptimizer.__match_section`: find the first synonym
group whose canonical name (first entry) is not yet a section key and one of
whose names occurs in the lowercased text. -/
def matchSectionAux (lowText : List Char) (usedKeys : List (List Char)) :
    List (List (List Char)) → Option (List Char)
  | [] => none
  | group :: rest =>
    if ¬ group.headD [] ∈ usedKeys then
      if group.any (fun name => containsSub lowText name) then some (group.headD [])
      else matchSectionAux lowText usedKeys rest
    else matchSectionAux lowText usedKeys rest

/-- `ResumeOptimizer.__match_section(text, sections)` (the Python method also
creates the empty section entry; the callers below do that on a match). -/
def matchSection (text : List Char)
    (sections : List (List Char × List (List Char))) : Option (List Char) :=
  matchSectionAux (toLowerL text) (dictKeys sections) SECTION_IDENTIFIERS

/-- Mutable state of a `ResumeOptimizer` object during `match_parse`:
contact state, URL list, and the sections dict. -/
structure ParseState where
  contact : ContactState
  urls : List (List Char)
  sections : List (List Char × List (List Char))
deriving DecidableEq

/-- `ResumeOptimizer.__update_sections(text, current_section, sections)`:
dispatch on the current section ("header" runs the contact pass and, on its
signal, attempts a section match; "about" runs the contact pass with the
signal discarded), then extract URLs; if a new section was matched the line is
consumed as a heading, otherwise the processed text is appended to the current
section.  Returns the new current section with the new state. -/
def updateSections (urlF : List Char → List (List Char)) (line : List Char)
    (current : List Char) (st : ParseState) : List Char × ParseState :=
  let h :=
    if current = "header".data then
      let r := processHeader st.contact line
      (r.1, if r.2.2 then matchSection r.1 st.sections else none, r.2.1)
    else if current = "about".data then
      let r := processHeader st.contact line
      (r.1, none, r.2.1)
    else (line, none, st.contact)
  let sections1 := match h.2.1 with
    | some name => st.sections ++ [(name, [])]
    | none => st.sections
  let u := extractUrls urlF st.urls h.1
  match h.2.1 with
  | some name => (name, ⟨h.2.2, u.2, sections1⟩)
  | none => (current, ⟨h.2.2, u.2, dictAppendLine sections1 current u.1⟩)

/-- Loop state of `ResumeOptimizer.match_parse`: the `new_section` flag, the
current section name, and the optimizer state. -/
structure FullState where
  newSectionFlag : Bool
  current : List Char
  ps : ParseState
deriving DecidableEq

/-- Loop body of `ResumeOptimizer.match_parse` for one line: a blank
(whitespace-only) line only sets the `new_section` flag; after a blank line a
section-heading match is attempted and, on success, the line is consumed; any
other line is body text, routed through `__update_sections` when parsing a
resume and appended verbatim otherwise. -/
def parseStep (urlF : List Char → List (List Char)) (isResume : Bool)
    (st : FullState) (line : List Char) : FullState :=
  if line.all Char.isWhitespace then { st with newSectionFlag := true }
  else
    let m := if st.newSectionFlag then matchSection line st.ps.sections else none
    match m with
    | some name =>
      ⟨false, name, { st.ps with sections := st.ps.sections ++ [(name, [])] }⟩
    | none =>
      if isResume then
        let r := updateSections urlF line st.current st.ps
        ⟨false, r.1, r.2⟩
      else
        ⟨false, st.current,
          { st.ps with sections := dictAppendLine st.ps.sections st.current line }⟩

/-- Initial state of `match_parse`: the flag set, current section `"header"`
with an empty line list, and the contact registry all missing. -/
def initState : FullState :=
  ⟨true, "header".data,
    ⟨⟨[ContactKey.phone, ContactKey.email], []⟩, [], [("header".data, [])]⟩⟩

/-- `ResumeOptimizer.match_parse(parse_string, is_resume)`: split into lines
and run the loop.  Returns the final loop state (the Python method returns its
`sections`; the contact info and URLs live on the object). -/
def matchParse (urlF : List Char → List (List Char)) (parseString : List Char)
    (isResume : Bool) : FullState :=
  (splitLines parseString).foldl (parseStep urlF isResume) initState

/-! ### Helper lemmas -/

theorem uint32_le_iff (a b : UInt32) : (a ≤ b) ↔ a.toNat ≤ b.toNat := by
  simp only [UInt32.le_def, BitVec.le_def]
  exact Iff.rfl

theorem char_toNat_ofNat {n : Nat} (h : n.isValidChar) : (Char.ofNat n).toNat = n := by
  rw [Char.ofNat, dif_pos h]
  rfl

/-- Lowercasing does not change membership in the `\w` class. -/
theorem isWordChar_toLower (c : Char) : isWordChar c.toLower = isWordChar c := by
  unfold isWordChar Char.isAlphanum Char.isAlpha Char.isUpper Char.isLower Char.isDigit
    Char.toLower
  by_cases h : c.toNat ≥ 65 ∧ c.toNat ≤ 90
  · simp only [h, and_self, if_true]
    have hv : (c.toNat + 32).isValidChar := by
      left
      have := h.2
      omega
    set d := Char.ofNat (c.toNat + 32) with hd
    have ht : d.toNat = c.toNat + 32 := char_toNat_ofNat hv
    have e97 : (97:UInt32).toNat = 97 := rfl
    have e122 : (122:UInt32).toNat = 122 := rfl
    have e65 : (65:UInt32).toNat = 65 := rfl
    have e90 : (90:UInt32).toNat = 90 := rfl
    have h97 : (97 ≤ d.val) := (uint32_le_iff _ _).mpr (by
      rw [e97]
      show 97 ≤ d.toNat
      rw [ht]
      have := h.1
      omega)
    have h122 : (d.val ≤ 122) := (uint32_le_iff _ _).mpr (by
      rw [e122]
      show d.toNat ≤ 122
      rw [ht]
      have := h.2
      omega)
    have hc65 : (65 ≤ c.val) := (uint32_le_iff _ _).mpr (by rw [e65]; exact h.1)
    have hc90 : (c.val ≤ 90) := (uint32_le_iff _ _).mpr (by rw [e90]; exact h.2)
    simp [h97, h122, hc65, hc90]
  · simp only [h, if_false]

theorem countRuns_toLower (s : List Char) : ∀ b, countRuns b (toLowerL s) = countRuns b s := by
  induction s with
  | nil => intro b; rfl
  | cons c rest ih =>
    intro b
    have ih' : ∀ b', countRuns b' (List.map Char.toLower rest) = countRuns b' rest :=
      fun b' => ih b'
    simp only [toLowerL, List.map_cons, countRuns, isWordChar_toLower, ih']

/-- The word-token count of `WORD_REGEX` is invariant under `str.lower()`. -/
theorem wordCount_toLower (s : List Char) : wordCount (toLowerL s) = wordCount s :=
  countRuns_toLower s false

/-- Membership characterization of the `to_count` keyword loop. -/
theorem mem_toCountLoop (r j : List Char) (l : List (List Char × ℚ)) (k : List Char) (d : ℤ) :
    (k, d) ∈ toCountLoop r j l ↔
      k ∈ l.map Prod.fst ∧ d = keywordDeficit r j k ∧ 0 < keywordDeficit r j k := by
  induction l with
  | nil => simp [toCountLoop]
  | cons p rest ih =>
    obtain ⟨kw, v⟩ := p
    by_cases hpos : 0 < keywordDeficit r j kw
    · simp only [toCountLoop, if_pos hpos, List.mem_cons, ih, List.map_cons, Prod.mk.injEq]
      constructor
      · rintro (⟨rfl, rfl⟩ | ⟨hm, hd, hp⟩)
        · exact ⟨Or.inl rfl, rfl, hpos⟩
        · exact ⟨Or.inr hm, hd, hp⟩
      · rintro ⟨rfl | hm, hd, hp⟩
        · exact Or.inl ⟨rfl, hd⟩
        · exact Or.inr ⟨hm, hd, hp⟩
    · simp only [toCountLoop, if_neg hpos, ih, List.map_cons, List.mem_cons]
      constructor
      · rintro ⟨hm, hd, hp⟩
        exact ⟨Or.inr hm, hd, hp⟩
      · rintro ⟨rfl | hm, hd, hp⟩
        · exact absurd hp hpos
        · exact ⟨hm, hd, hp⟩

/-! ### Claim C1 -/

/-- C1 counterexample: the claim asserts `match_percentage = 0` exactly when
both totals are 0, but at `matched_total = 0`, `missed_total = 1` the score is
`0/1 = 0` while the totals are not both 0, so the biconditional fails. -/
theorem analyzeScore_zero_iff_both_zero_false :
    ¬ ((analyzeScore 0 1 = 0) ↔ ((0:ℚ) = 0 ∧ (1:ℚ) = 0)) := by
  intro h
  have h0 : analyzeScore 0 1 = 0 := by norm_num [analyzeScore]
  exact absurd (h.mp h0).2 (by norm_num)

/-- C1 amended: for non-negative totals, `analyze` computes the final score by
the stated three-branch formula, the score is always non-negative, and it is 0
exactly when `matched_total = 0` (in particular when both totals are 0). -/
theorem analyzeScore_spec (matched missed : ℚ) (hm : 0 ≤ matched) (hs : 0 ≤ missed) :
    (matched < missed → analyzeScore matched missed = matched / missed) ∧
    (¬ matched < missed → 0 < matched + missed →
      analyzeScore matched missed = matched / (missed + matched)) ∧
    (¬ matched < missed → ¬ 0 < matched + missed → analyzeScore matched missed = 0) ∧
    0 ≤ analyzeScore matched missed ∧
    (analyzeScore matched missed = 0 ↔ matched = 0) := by
  refine ⟨fun h => by rw [analyzeScore, if_pos h], fun h hp => ?_, fun h hp => ?_, ?_, ?_⟩
  · rw [analyzeScore, if_neg h, if_pos (by linarith)]
  · rw [analyzeScore, if_neg h, if_neg (by intro hc; exact hp (by linarith))]
  · unfold analyzeScore
    split
    · exact div_nonneg hm hs
    · split
      · apply div_nonneg hm
        linarith
      · exact le_refl 0
  · constructor
    · intro h0
      by_contra hne
      have hpos : 0 < matched := lt_of_le_of_ne hm (Ne.symm hne)
      unfold analyzeScore at h0
      by_cases hlt : matched < missed
      · rw [if_pos hlt] at h0
        exact absurd h0 (ne_of_gt (div_pos hpos (lt_trans hpos hlt)))
      · rw [if_neg hlt] at h0
        rw [if_pos (by linarith)] at h0
        exact absurd h0 (ne_of_gt (div_pos hpos (by linarith)))
    · intro h0
      subst h0
      unfold analyzeScore
      split
      · exact zero_div _
      · split
        · exact zero_div _
        · rfl

/-- C1 amended, witness at `matched_total = 2`, `missed_total = 3`. -/
theorem analyzeScore_spec_witness :
    (0:ℚ) ≤ 2 ∧ (0:ℚ) ≤ 3 ∧
      (0 ≤ analyzeScore 2 3 ∧ (analyzeScore 2 3 = 0 ↔ (2:ℚ) = 0)) :=
  ⟨by norm_num, by norm_num,
    ⟨(analyzeScore_spec 2 3 (by norm_num) (by norm_num)).2.2.2.1,
     (analyzeScore_spec 2 3 (by norm_num) (by norm_num)).2.2.2.2⟩⟩

/-! ### Claim C2 -/

/-- C2: at the failing input `sections = {"header": ["hello"]}`,
`keyword_values = {"python": 1.0}` no keyword occurs in any non-empty section,
the total applied weight is 0, and `apply_weights` raises `ZeroDivisionError`
in its final division loop instead of returning a degenerate score. -/
theorem applyWeights_zero_total_raises :
    applyWeights [("header".data, ["hello".data])] [("python".data, 1)] =
      .error .zeroDivisionError := by
  decide

/-! ### Claim C9 -/

/-- C9: whenever the resume string contains at least one word token,
`to_count` succeeds and returns exactly the keywords of the given dict whose
deficit `round(job_count - resume_count * (job_words / resume_words))` is
strictly positive, each mapped to that deficit; in particular every returned
value is strictly positive and none is negative. -/
theorem toCount_spec (resumeString jobString : List Char)
    (keywordsDict : List (List Char × ℚ)) (h : 0 < wordCount resumeString) :
    ∃ l, toCount resumeString jobString keywordsDict = some l ∧
      (∀ k d, ((k, d) ∈ l ↔ k ∈ keywordsDict.map Prod.fst ∧
        d = keywordDeficit resumeString jobString k ∧
        0 < keywordDeficit resumeString jobString k)) ∧
      (∀ p ∈ l, 0 < p.2) := by
  have h0 : ¬ wordCount (toLowerL resumeString) = 0 := by
    rw [wordCount_toLower]
    omega
  refine ⟨toCountLoop resumeString jobString keywordsDict, ?_, ?_, ?_⟩
  · rw [toCount, if_neg h0]
  · intro k d
    exact mem_toCountLoop resumeString jobString keywordsDict k d
  · intro p hp
    obtain ⟨k, d⟩ := p
    have := (mem_toCountLoop resumeString jobString keywordsDict k d).mp hp
    simpa [this.2.1] using this.2.2

/-- C9 witness: resume `"hi"`, job `"hi hi hi world"`, keywords
`{"hi": 1, "world": 1}`; only `"world"` has a positive deficit. -/
theorem toCount_spec_witness :
    0 < wordCount "hi".data ∧
      ∃ l, toCount "hi".data "hi hi hi world".data
          [("hi".data, 1), ("world".data, 1)] = some l ∧
        (∀ k d, ((k, d) ∈ l ↔ k ∈ [("hi".data, (1:ℚ)), ("world".data, 1)].map Prod.fst ∧
          d = keywordDeficit "hi".data "hi hi hi world".data k ∧
          0 < keywordDeficit "hi".data "hi hi hi world".data k)) ∧
        (∀ p ∈ l, 0 < p.2) :=
  ⟨by decide, toCount_spec "hi".data "hi hi hi world".data
    [("hi".data, 1), ("world".data, 1)] (by decide)⟩

/-! ### Claim C10 -/

/-- C10: when the resume string of a `CompareResume` contains no word token,
`to_count` raises `ZeroDivisionError` (modelled as `none`) for every keyword
dict — the ratio divides by the resume word count before any keyword is
examined — and hence the report-building tail of `analyze`, which calls
`to_count` on whichever weighted dict the threshold selects, fails with
`ZeroDivisionError` rather than producing a report. -/
theorem toCount_no_word_tokens (resumeString jobString : List Char)
    (h : wordCount resumeString = 0) :
    (∀ keywordsDict, toCount resumeString jobString keywordsDict = none) ∧
    (∀ matchPercentage matchedWeighted missedWeighted,
      buildUnderused resumeString jobString matchPercentage matchedWeighted
        missedWeighted = .error .zeroDivisionError) := by
  have h0 : wordCount (toLowerL resumeString) = 0 := by rw [wordCount_toLower]; exact h
  have htc : ∀ kd, toCount resumeString jobString kd = none := by
    intro kd
    rw [toCount, if_pos h0]
  refine ⟨htc, ?_⟩
  intro mp mw msw
  rw [buildUnderused]
  rw [htc]

/-- C10 witness: a resume string of punctuation only has no word token. -/
theorem toCount_no_word_tokens_witness :
    wordCount "!! ??".data = 0 ∧
      (toCount "!! ??".data "python".data [("python".data, 1)] = none ∧
        buildUnderused "!! ??".data "python".data 0 [] [("python".data, 1)] =
          .error .zeroDivisionError) :=
  ⟨by decide,
    (toCount_no_word_tokens "!! ??".data "python".data (by decide)).1 _,
    (toCount_no_word_tokens "!! ??".data "python".data (by decide)).2 0 [] _⟩

/-! ### Claim C8 -/

/-- C8: the underused list of the report is computed by running `to_count` on
`matched_weighted` when `match_percentage ≥ 0.7` and on `missed_weighted`
otherwise; whenever it is produced it is sorted by deficit in descending order
and has at most `MAX_UNDERUSED = 20` entries. -/
theorem buildUnderused_spec (resumeString jobString : List Char)
    (matchPercentage : ℚ) (matchedWeighted missedWeighted : List (List Char × ℚ))
    (l : List (List Char × ℤ))
    (h : buildUnderused resumeString jobString matchPercentage matchedWeighted
      missedWeighted = .ok l) :
    (∃ u, toCount resumeString jobString
        (if MISSED_THRESHOLD ≤ matchPercentage then matchedWeighted else missedWeighted) =
          some u ∧
      l = (u.mergeSort (fun a b => decide (b.2 ≤ a.2))).take MAX_UNDERUSED) ∧
    l.length ≤ 20 ∧ l.Pairwise (fun a b => b.2 ≤ a.2) := by
  rw [buildUnderused] at h
  rcases htc : toCount resumeString jobString
      (if MISSED_THRESHOLD ≤ matchPercentage then matchedWeighted else missedWeighted)
    with _ | u
  · rw [htc] at h
    exact absurd h (by simp)
  · rw [htc] at h
    have hl : l = (u.mergeSort (fun a b => decide (b.2 ≤ a.2))).take MAX_UNDERUSED := by
      have := h
      simp only [Except.ok.injEq] at this
      exact this.symm
    refine ⟨⟨u, rfl, hl⟩, ?_, ?_⟩
    · rw [hl]
      calc ((u.mergeSort (fun a b => decide (b.2 ≤ a.2))).take MAX_UNDERUSED).length
          ≤ MAX_UNDERUSED := by
            rw [List.length_take]
            exact min_le_left _ _
        _ = 20 := rfl
    · have hs : (u.mergeSort (fun a b => decide (b.2 ≤ a.2))).Pairwise
          (fun a b => decide (b.2 ≤ a.2) = true) := by
        apply List.sorted_mergeSort
        · intro a b c hab hbc
          simp only [decide_eq_true_eq] at hab hbc ⊢
          exact le_trans hbc hab
        · intro a b
          rcases le_total b.2 a.2 with hc | hc <;> simp [hc]
      rw [hl]
      have := hs.sublist (List.take_sublist MAX_UNDERUSED _)
      exact this.imp (fun hab => by simpa using hab)

/-- C8 witness: a concrete run with `match_percentage = 0` below the
threshold, drawing the deficits from `missed_weighted`. -/
theorem buildUnderused_spec_witness :
    buildUnderused "hi".data "hi hi hi world".data 0 [] [("world".data, 1)] =
      .ok [("world".data, 1)] ∧
    ((∃ u, toCount "hi".data "hi hi hi world".data
        (if MISSED_THRESHOLD ≤ (0:ℚ) then [] else [("world".data, (1:ℚ))]) = some u ∧
      [(("world".data : List Char), (1:ℤ))] =
        (u.mergeSort (fun a b => decide (b.2 ≤ a.2))).take MAX_UNDERUSED) ∧
    ([(("world".data : List Char), (1:ℤ))]).length ≤ 20 ∧
    ([(("world".data : List Char), (1:ℤ))]).Pairwise (fun a b => b.2 ≤ a.2)) := by
  have h1 : countSubstr (toLowerL "hi hi hi world".data) "world".data = 1 := by decide
  have h2 : countSubstr (toLowerL "hi".data) "world".data = 0 := by decide
  have h3 : wordCount (toLowerL "hi hi hi world".data) = 4 := by decide
  have h4 : wordCount (toLowerL "hi".data) = 1 := by decide
  have hscale : wordScale "hi".data "hi hi hi world".data = 4 := by
    rw [wordScale, h3, h4]
    norm_num
  have hdef : keywordDeficit "hi".data "hi hi hi world".data "world".data = 1 := by
    rw [keywordDeficit, h1, h2, hscale]
    norm_num [pythonRound]
  have hth : ¬ MISSED_THRESHOLD ≤ (0:ℚ) := by norm_num [MISSED_THRESHOLD]
  have ht : toCount "hi".data "hi hi hi world".data
      (if MISSED_THRESHOLD ≤ (0:ℚ) then [] else [("world".data, (1:ℚ))]) =
        some [("world".data, (1:ℤ))] := by
    rw [if_neg hth, toCount, if_neg (by rw [h4]; omega)]
    simp [toCountLoop, hdef]
  have hb : buildUnderused "hi".data "hi hi hi world".data 0 [] [("world".data, 1)] =
      .ok [("world".data, 1)] := by
    simp only [buildUnderused, ht, List.mergeSort_singleton]
    rfl
  exact ⟨hb, buildUnderused_spec "hi".data "hi hi hi world".data 0 []
    [("world".data, 1)] _ hb⟩

/-! ### Claim C3 -/

theorem findLiveIdx_get (jobText : List (Option (List Char))) (term : List Char) :
    ∀ i, findLiveIdx jobText term = some i → jobText.get? i = some (some term) := by
  induction jobText with
  | nil => intro i h; exact absurd h (by simp [findLiveIdx])
  | cons x rest ih =>
    intro i h
    rw [findLiveIdx] at h
    by_cases hx : x = some term
    · rw [if_pos hx] at h
      obtain rfl : i = 0 := by simpa using h.symm
      simp [hx]
    · rw [if_neg hx] at h
      rcases hj : findLiveIdx rest term with _ | j
      · rw [hj] at h
        exact absurd h (by simp)
      · rw [hj] at h
        simp only [Option.map_some'] at h
        obtain rfl : i = j + 1 := by simpa using h.symm
        simpa using ih j hj

theorem findLiveIdx_lt (jobText : List (Option (List Char))) (term : List Char)
    (i : Nat) (h : findLiveIdx jobText term = some i) : i < jobText.length := by
  have := findLiveIdx_get jobText term i h
  by_contra hge
  rw [List.get?_eq_getElem?, List.getElem?_eq_none (by omega)] at this
  exact absurd this (by simp)

/-- Every match event's position held its term in the job-text list at entry
to the loop (consumption only overwrites entries with `none`). -/
theorem matchEvents_get (resumeKeywords : List (List Char × ℚ)) :
    ∀ jobText e, e ∈ matchEvents resumeKeywords jobText →
      jobText.get? e.2 = some (some e.1.1) := by
  induction resumeKeywords with
  | nil => intro jobText e h; exact absurd h (by simp [matchEvents])
  | cons p rest ih =>
    obtain ⟨term, score⟩ := p
    intro jobText e h
    rw [matchEvents] at h
    rcases hidx : findLiveIdx jobText term with _ | i
    · rw [hidx] at h
      exact ih jobText e h
    · rw [hidx] at h
      rcases List.mem_cons.mp h with rfl | h
      · exact findLiveIdx_get jobText term i hidx
      · have hset := ih (jobText.set i none) e h
        by_cases hei : e.2 = i
        · rw [hei, List.get?_eq_getElem?] at hset
          rw [List.getElem?_set_self' ] at hset
          have hlt : i < jobText.length := findLiveIdx_lt jobText term i hidx
          rw [List.getElem?_eq_getElem hlt] at hset
          exact absurd hset (by simp)
        · rw [List.get?_eq_getElem?, List.getElem?_set_ne (by omega)] at hset
          rw [List.get?_eq_getElem?]
          exact hset

/-- The consumed positions of the match events are pairwise distinct: a job
entry never matches twice. -/
theorem matchEvents_nodup (resumeKeywords : List (List Char × ℚ)) :
    ∀ jobText, ((matchEvents resumeKeywords jobText).map (fun e => e.2)).Nodup := by
  induction resumeKeywords with
  | nil => intro jobText; simp [matchEvents]
  | cons p rest ih =>
    obtain ⟨term, score⟩ := p
    intro jobText
    rw [matchEvents]
    rcases hidx : findLiveIdx jobText term with _ | i
    · exact ih jobText
    · simp only [List.map_cons, List.nodup_cons]
      refine ⟨?_, ih (jobText.set i none)⟩
      intro hmem
      obtain ⟨e, he, hei⟩ := List.mem_map.mp hmem
      have hset := matchEvents_get rest (jobText.set i none) e he
      rw [hei, List.get?_eq_getElem?, List.getElem?_set_self'] at hset
      have hlt : i < jobText.length := findLiveIdx_lt jobText term i hidx
      rw [List.getElem?_eq_getElem hlt] at hset
      exact absurd hset (by simp)

/-- The compare loop is the fold of the match events over the initial state. -/
theorem compareLoop_eq_events (jobKeywords : List (List Char × ℚ)) :
    ∀ (res : List (List Char × ℚ)) (jobText : List (Option (List Char)))
      (ms : List (List Char × ℚ)) (mp maxp : ℚ),
      compareLoop jobKeywords res jobText ms mp maxp =
        ((matchEvents res jobText).foldl
            (fun d e => dictInsert d e.1.1 (eventValue jobKeywords e)) ms,
          mp + ((matchEvents res jobText).map (eventValue jobKeywords)).sum,
          maxp + ((matchEvents res jobText).map (fun e => e.1.2)).sum) := by
  intro res
  induction res with
  | nil => intro jobText ms mp maxp; simp [compareLoop, matchEvents]
  | cons p rest ih =>
    obtain ⟨term, score⟩ := p
    intro jobText ms mp maxp
    rw [compareLoop, matchEvents]
    rcases hidx : findLiveIdx jobText term with _ | i
    · exact ih jobText ms mp maxp
    · dsimp only
      rw [ih]
      simp only [List.foldl_cons, List.map_cons, List.sum_cons, eventValue, Prod.mk.injEq]
      exact ⟨by trivial, by ring, by ring⟩

/-- C3: `compare` records, for each resume keyphrase whose term still has a
live entry in the job-term list, a match at the first live position of that
term, which is then consumed — so the consumed positions are pairwise distinct
and each holds exactly the matched term.  The matches dict is the sequence of
assignments `matches[term] := resume score + job score at that position`,
`match_points` is the sum of those combined values, and `max_points` is
(sum of all job scores + sum of matched resume scores) / 2. -/
theorem compare_spec (resumeKeywords jobKeywords : List (List Char × ℚ)) :
    (compare resumeKeywords jobKeywords).matchesDict =
      (matchEvents resumeKeywords (jobKeywords.map (fun p => some p.1))).foldl
        (fun d e => dictInsert d e.1.1 (eventValue jobKeywords e)) [] ∧
    (compare resumeKeywords jobKeywords).matchPoints =
      ((matchEvents resumeKeywords (jobKeywords.map (fun p => some p.1))).map
        (eventValue jobKeywords)).sum ∧
    (compare resumeKeywords jobKeywords).maxPoints =
      ((jobKeywords.map Prod.snd).sum +
        ((matchEvents resumeKeywords (jobKeywords.map (fun p => some p.1))).map
          (fun e => e.1.2)).sum) / 2 ∧
    ((matchEvents resumeKeywords (jobKeywords.map (fun p => some p.1))).map
      (fun e => e.2)).Nodup ∧
    (∀ e ∈ matchEvents resumeKeywords (jobKeywords.map (fun p => some p.1)),
      (jobKeywords.get? e.2).map Prod.fst = some e.1.1) := by
  have hloop := compareLoop_eq_events jobKeywords resumeKeywords
    (jobKeywords.map (fun p => some p.1)) [] 0 ((jobKeywords.map Prod.snd).sum)
  refine ⟨?_, ?_, ?_, matchEvents_nodup resumeKeywords _, ?_⟩
  · show (compareLoop jobKeywords resumeKeywords (jobKeywords.map (fun p => some p.1))
      [] 0 ((jobKeywords.map Prod.snd).sum)).1 = _
    rw [hloop]
  · show (compareLoop jobKeywords resumeKeywords (jobKeywords.map (fun p => some p.1))
      [] 0 ((jobKeywords.map Prod.snd).sum)).2.1 = _
    rw [hloop]
    exact zero_add _
  · show (compareLoop jobKeywords resumeKeywords (jobKeywords.map (fun p => some p.1))
      [] 0 ((jobKeywords.map Prod.snd).sum)).2.2 / 2 = _
    rw [hloop]
  · intro e he
    have hg := matchEvents_get resumeKeywords _ e he
    rw [List.get?_eq_getElem?, List.getElem?_map] at hg
    rw [List.get?_eq_getElem?]
    rcases hj : jobKeywords[e.2]? with _ | p
    · rw [hj] at hg
      exact absurd hg (by simp)
    · rw [hj] at hg
      simp only [Option.map_some'] at hg ⊢
      exact congrArg some (by simpa using hg)


/-! ### Claim C4 -/

/-- C4 counterexample: in the run on
`"John\n\nAbout me\ncontact jane@a.com here"` the only line carrying an email
is a body line of the `"about"` section (the header holds just `"John"`), yet
the email is recorded in the contact info and stripped from the stored line —
contact extraction is not limited to header lines.  The URL matcher parameter
returns no match, agreeing with `URL_REGEX` on these lines (none contains a
dot-separated domain, an IP address, or a port). -/
theorem contact_extraction_in_about :
    (matchParse (fun _ => []) "John\n\nAbout me\ncontact jane@a.com here".data
        true).ps.contact.info = [(ContactKey.email, "jane@a.com".data)] ∧
    dictGet (matchParse (fun _ => []) "John\n\nAbout me\ncontact jane@a.com here".data
        true).ps.sections "about".data = some ["contact  here".data] ∧
    dictGet (matchParse (fun _ => []) "John\n\nAbout me\ncontact jane@a.com here".data
        true).ps.sections "header".data = some ["John".data] := by
  decide

/-- C4 amended: contact-field extraction runs exactly on lines processed while
the current section is `"header"` or `"about"`; a line of any other section
leaves the contact state untouched and is appended (URL-stripped only, never
contact-stripped) to its section. -/
theorem updateSections_other_sections (urlF : List Char → List (List Char))
    (line current : List Char) (st : ParseState)
    (h1 : current ≠ "header".data) (h2 : current ≠ "about".data) :
    updateSections urlF line current st =
      (current, ⟨st.contact, (extractUrls urlF st.urls line).2,
        dictAppendLine st.sections current (extractUrls urlF st.urls line).1⟩) := by
  rw [updateSections]
  simp only [if_neg h1, if_neg h2]

/-- C4 amended, witness: a line of the `"experience"` section passes through
with no contact extraction. -/
theorem updateSections_other_sections_witness :
    ("experience".data ≠ "header".data ∧ "experience".data ≠ "about".data) ∧
    updateSections (fun _ => []) "email me at a@b.com".data "experience".data
        ⟨⟨[ContactKey.phone, ContactKey.email], []⟩, [],
          [("header".data, []), ("experience".data, [])]⟩ =
      ("experience".data,
        ⟨⟨[ContactKey.phone, ContactKey.email], []⟩, [],
          [("header".data, []),
           ("experience".data, ["email me at a@b.com".data])]⟩) := by
  refine ⟨⟨by decide, by decide⟩, ?_⟩
  rw [updateSections_other_sections (fun _ => []) "email me at a@b.com".data
    "experience".data _ (by decide) (by decide)]
  decide

/-! ### Claim C5 -/

/-- C5 counterexample: `"education\nstuff"` has no blank line, yet its first
line matches the `"education"` section group, so segmentation returns two
section keys and the header does not contain every line. -/
theorem no_blank_lines_counterexample :
    (∀ l ∈ splitLines "education\nstuff".data, (l.all Char.isWhitespace) = false) ∧
    (matchParse (fun _ => []) "education\nstuff".data false).ps.sections =
      [("header".data, []), ("education".data, ["stuff".data])] := by
  decide

theorem dictAppendLine_self (cur : List Char) (acc : List (List Char)) (l : List Char) :
    dictAppendLine [(cur, acc)] cur l = [(cur, acc ++ [l])] := by
  simp [dictAppendLine]

theorem foldl_dictAppendLine_single (cur : List Char) :
    ∀ (ls : List (List Char)) (acc : List (List Char)),
      ls.foldl (fun ss l => dictAppendLine ss cur l) [(cur, acc)] = [(cur, acc ++ ls)] := by
  intro ls
  induction ls with
  | nil => intro acc; simp
  | cons l rest ih =>
    intro acc
    rw [List.foldl_cons, dictAppendLine_self, ih]
    simp

/-- Body lines with the heading flag down and `is_resume = false` are appended
to the current section one after another. -/
theorem foldl_body_lines (urlF : List Char → List (List Char)) :
    ∀ (ls : List (List Char)) (st : FullState), st.newSectionFlag = false →
      (∀ l ∈ ls, (l.all Char.isWhitespace) = false) →
      ls.foldl (parseStep urlF false) st =
        ⟨false, st.current,
          ⟨st.ps.contact, st.ps.urls,
            ls.foldl (fun ss l => dictAppendLine ss st.current l) st.ps.sections⟩⟩ := by
  intro ls
  induction ls with
  | nil =>
    intro st hf _
    obtain ⟨f, c, ⟨ct, u, se⟩⟩ := st
    simp only at hf
    rw [hf]
    rfl
  | cons l rest ih =>
    intro st hf hb
    rw [List.foldl_cons, List.foldl_cons]
    have hstep : parseStep urlF false st l =
        ⟨false, st.current,
          ⟨st.ps.contact, st.ps.urls, dictAppendLine st.ps.sections st.current l⟩⟩ := by
      rw [parseStep, if_neg (by rw [hb l (List.mem_cons_self l rest)]; simp), hf]
      rfl
    rw [hstep]
    rw [ih _ rfl (fun x hx => hb x (List.mem_cons_of_mem l hx))]

/-- C5 amended: for an input with no blank (whitespace-only) line, parsed with
`is_resume = false` and whose first line matches no section group against the
initial sections dict, segmentation produces exactly one section, keyed
`"header"`, containing every line in order. -/
theorem matchParse_no_blank_lines (urlF : List Char → List (List Char)) (s : List Char)
    (hb : ∀ l ∈ splitLines s, (l.all Char.isWhitespace) = false)
    (hh : ∀ l ∈ (splitLines s).take 1, matchSection l [("header".data, [])] = none) :
    (matchParse urlF s false).ps.sections = [("header".data, splitLines s)] := by
  rw [matchParse]
  rcases hsl : splitLines s with _ | ⟨l0, rest⟩
  · rfl
  · rw [hsl] at hb hh
    have hl0 : (l0.all Char.isWhitespace) = false := hb l0 (List.mem_cons_self _ _)
    have hm : matchSection l0 [("header".data, [])] = none := hh l0 (by simp)
    have hstep : parseStep urlF false initState l0 =
        ⟨false, "header".data,
          ⟨⟨[ContactKey.phone, ContactKey.email], []⟩, [],
            [("header".data, [l0])]⟩⟩ := by
      simp only [parseStep, initState, hl0, Bool.false_eq_true, if_false, if_true, hm]
      rfl
    rw [List.foldl_cons, hstep,
      foldl_body_lines urlF rest _ rfl (fun x hx => hb x (List.mem_cons_of_mem l0 hx))]
    simp only
    rw [foldl_dictAppendLine_single]
    rfl

/-- C5 amended, witness on `"hello\nworld"`. -/
theorem matchParse_no_blank_lines_witness :
    ((∀ l ∈ splitLines "hello\nworld".data, (l.all Char.isWhitespace) = false) ∧
      (∀ l ∈ (splitLines "hello\nworld".data).take 1,
        matchSection l [("header".data, [])] = none)) ∧
    (matchParse (fun _ => []) "hello\nworld".data false).ps.sections =
      [("header".data, splitLines "hello\nworld".data)] :=
  ⟨⟨by decide, by decide⟩,
    matchParse_no_blank_lines (fun _ => []) "hello\nworld".data (by decide) (by decide)⟩


/-! ### Claim C6 -/

/-- Keys noted as found by the contact pass all come from the accumulator or
the iterated key list. -/
theorem mem_found_foldl :
    ∀ (keys : List ContactKey) (acc : List Char × List (ContactKey × List Char) × List ContactKey)
      (k : ContactKey), k ∈ (keys.foldl contactStep acc).2.2 → k ∈ acc.2.2 ∨ k ∈ keys := by
  intro keys
  induction keys with
  | nil => intro acc k h; exact Or.inl h
  | cons key rest ih =>
    intro acc k h
    rw [List.foldl_cons] at h
    rcases ih (contactStep acc key) k h with hacc | hrest
    · rw [contactStep] at hacc
      rcases hfind : contactFind key acc.1 with _ | m
      · rw [hfind] at hacc
        exact Or.inl hacc
      · rw [hfind] at hacc
        simp only [List.mem_append, List.mem_singleton] at hacc
        rcases hacc with hacc | rfl
        · exact Or.inl hacc
        · exact Or.inr (List.mem_cons_self _ _)
    · exact Or.inr (List.mem_cons_of_mem _ hrest)

/-- When the contact pass leaves the missing list unchanged, it found no key
on this line; together with non-empty recorded contact info that makes
`__process_header` raise its new-section signal. -/
theorem processHeader_signal (st : ContactState) (text : List Char)
    (hinfo : (processHeader st text).2.1.info ≠ [])
    (hmiss : (processHeader st text).2.1.missing = st.missing) :
    (processHeader st text).2.2 = true := by
  rw [processHeader] at hinfo hmiss ⊢
  by_cases he : st.missing.isEmpty
  · rw [if_pos he]
  · rw [if_neg he] at hinfo hmiss ⊢
    simp only at hinfo hmiss ⊢
    set r := st.missing.foldl contactStep (text, st.info, []) with hr
    have hfound : r.2.2 = [] := by
      rcases hfe : r.2.2 with _ | ⟨f, fs⟩
      · rfl
      · have hfm : f ∈ r.2.2 := by rw [hfe]; exact List.mem_cons_self _ _
        have : f ∈ ([] : List ContactKey) ∨ f ∈ st.missing :=
          mem_found_foldl st.missing (text, st.info, []) f hfm
        rcases this with h0 | hmem
        · exact absurd h0 (by simp)
        · have := List.filter_eq_self.mp hmiss f hmem
          simp only [decide_eq_true_eq] at this
          exact absurd (List.elem_eq_true_of_mem hfm) this
    rw [hfound]
    simp only [List.isEmpty_nil, Bool.and_true]
    simp only [decide_eq_true_eq]
    rcases hi : r.2.1 with _ | _
    · exact absurd hi hinfo
    · simp

/-- C6: while segmenting the header, if after the contact pass on a line some
contact field has ever been resolved and none was newly resolved on this line,
the segmenter attempts a section match against the stripped line even with no
preceding blank line; when the match succeeds the line is consumed as a
heading — the new section is opened empty and the line is appended nowhere. -/
theorem updateSections_implicit_boundary (urlF : List Char → List (List Char))
    (line : List Char) (st : ParseState) (name : List Char)
    (hinfo : (processHeader st.contact line).2.1.info ≠ [])
    (hmiss : (processHeader st.contact line).2.1.missing = st.contact.missing)
    (hmatch : matchSection (processHeader st.contact line).1 st.sections = some name) :
    updateSections urlF line "header".data st =
      (name, ⟨(processHeader st.contact line).2.1,
        (extractUrls urlF st.urls (processHeader st.contact line).1).2,
        st.sections ++ [(name, [])]⟩) := by
  have hsig := processHeader_signal st.contact line hinfo hmiss
  rw [updateSections, if_pos rfl]
  simp only [hsig, if_true, hmatch]

/-- C6 witness: with the email already recorded and the phone still missing,
the line `"Work history"` resolves nothing new and is consumed as the heading
of the `"experience"` section. -/
theorem updateSections_implicit_boundary_witness :
    ((processHeader ⟨[ContactKey.phone], [(ContactKey.email, "a@b.com".data)]⟩
        "Work history".data).2.1.info ≠ [] ∧
      (processHeader ⟨[ContactKey.phone], [(ContactKey.email, "a@b.com".data)]⟩
        "Work history".data).2.1.missing = [ContactKey.phone] ∧
      matchSection (processHeader ⟨[ContactKey.phone], [(ContactKey.email, "a@b.com".data)]⟩
        "Work history".data).1 [("header".data, ["x".data])] = some "experience".data) ∧
    updateSections (fun _ => []) "Work history".data "header".data
        ⟨⟨[ContactKey.phone], [(ContactKey.email, "a@b.com".data)]⟩, [],
          [("header".data, ["x".data])]⟩ =
      ("experience".data,
        ⟨⟨[ContactKey.phone], [(ContactKey.email, "a@b.com".data)]⟩, [],
          [("header".data, ["x".data]), ("experience".data, [])]⟩) := by
  refine ⟨⟨by decide, by decide, by decide⟩, ?_⟩
  rw [updateSections_implicit_boundary (fun _ => []) "Work history".data
    ⟨⟨[ContactKey.phone], [(ContactKey.email, "a@b.com".data)]⟩, [],
      [("header".data, ["x".data])]⟩ "experience".data
    (by decide) (by decide) (by decide)]
  decide


/-! ### Claim C7 -/

theorem dictKeys_dictAppendLine (d : List (List Char × List (List Char)))
    (k line : List Char) : dictKeys (dictAppendLine d k line) = dictKeys d := by
  induction d with
  | nil => rfl
  | cons p rest ih =>
    by_cases hp : p.1 = k
    · simp only [dictAppendLine, dictKeys, List.map_cons, if_pos hp] at ih ⊢
      rw [hp]
      exact congrArg _ ih
    · simp only [dictAppendLine, dictKeys, List.map_cons, if_neg hp] at ih ⊢
      exact congrArg _ ih

theorem dictGet_append_some {α : Type} (d e : List (List Char × α)) (k : List Char)
    (v : α) (h : dictGet d k = some v) : dictGet (d ++ e) k = some v := by
  induction d with
  | nil => exact absurd h (by simp [dictGet])
  | cons p rest ih =>
    obtain ⟨k1, v1⟩ := p
    rw [dictGet] at h
    by_cases hk : k1 = k
    · rw [List.cons_append, dictGet, if_pos hk]
      rw [if_pos hk] at h
      exact h
    · rw [List.cons_append, dictGet, if_neg hk]
      rw [if_neg hk] at h
      exact ih h

theorem dictGet_dictAppendLine (d : List (List Char × List (List Char)))
    (c t k : List Char) :
    dictGet (dictAppendLine d c t) k =
      (dictGet d k).map (fun v => if c = k then v ++ [t] else v) := by
  induction d with
  | nil => rfl
  | cons p rest ih =>
    obtain ⟨k1, v1⟩ := p
    rw [dictAppendLine, List.map_cons]
    rw [dictAppendLine] at ih
    by_cases hc : k1 = c
    · by_cases hk : k1 = k
      · rw [show (if (k1, v1).1 = c then (k1, v1 ++ [t]) else (k1, v1)) = (k1, v1 ++ [t])
          from by simp [hc]]
        rw [dictGet, if_pos hk, dictGet, if_pos hk, Option.map_some', if_pos (hc ▸ hk)]
      · rw [show (if (k1, v1).1 = c then (k1, v1 ++ [t]) else (k1, v1)) = (k1, v1 ++ [t])
          from by simp [hc]]
        rw [dictGet, if_neg hk, dictGet, if_neg hk, ih]
    · by_cases hk : k1 = k
      · rw [show (if (k1, v1).1 = c then (k1, v1 ++ [t]) else (k1, v1)) = (k1, v1)
          from by simp [hc]]
        rw [dictGet, if_pos hk, dictGet, if_pos hk, Option.map_some',
          if_neg (fun h => hc (by rw [hk, ← h]))]
      · rw [show (if (k1, v1).1 = c then (k1, v1 ++ [t]) else (k1, v1)) = (k1, v1)
          from by simp [hc]]
        rw [dictGet, if_neg hk, dictGet, if_neg hk, ih]

theorem matchSectionAux_fresh (lowText : List Char) (usedKeys : List (List Char)) :
    ∀ groups n, matchSectionAux lowText usedKeys groups = some n → ¬ n ∈ usedKeys := by
  intro groups
  induction groups with
  | nil => intro n h; exact absurd h (by rw [matchSectionAux]; simp)
  | cons group rest ih =>
    intro n h
    rw [matchSectionAux] at h
    by_cases hu : group.headD [] ∈ usedKeys
    · rw [if_neg (by simpa using hu)] at h
      exact ih n h
    · rw [if_pos (by simpa using hu)] at h
      by_cases ha : group.any (fun name => containsSub lowText name)
      · rw [if_pos ha] at h
        obtain rfl : group.headD [] = n := by simpa using h
        exact hu
      · rw [if_neg ha] at h
        exact ih n h

/-- A successful section match names a canonical section that is not yet a key. -/
theorem matchSection_fresh (text : List Char)
    (sections : List (List Char × List (List Char))) (n : List Char)
    (h : matchSection text sections = some n) : ¬ n ∈ dictKeys sections :=
  matchSectionAux_fresh (toLowerL text) (dictKeys sections) SECTION_IDENTIFIERS n h

/-- The sections dict after one `__update_sections` call is either the old dict
with one line appended to the current section, or the old dict extended with a
single fresh empty section. -/
theorem updateSections_sections_shape (urlF : List Char → List (List Char))
    (line current : List Char) (st : ParseState) :
    (∃ t, (updateSections urlF line current st).2.sections =
        dictAppendLine st.sections current t) ∨
    (∃ n, ¬ n ∈ dictKeys st.sections ∧
      (updateSections urlF line current st).2.sections = st.sections ++ [(n, [])]) := by
  rw [updateSections]
  by_cases hA : current = "header".data
  · rw [if_pos hA]
    dsimp only
    by_cases hsig : (processHeader st.contact line).2.2
    · rw [if_pos hsig]
      rcases hm : matchSection (processHeader st.contact line).1 st.sections with _ | n
      · exact Or.inl ⟨_, rfl⟩
      · exact Or.inr ⟨n, matchSection_fresh _ _ n hm, rfl⟩
    · rw [if_neg hsig]
      exact Or.inl ⟨_, rfl⟩
  · rw [if_neg hA]
    by_cases hB : current = "about".data
    · rw [if_pos hB]
      dsimp only
      exact Or.inl ⟨_, rfl⟩
    · rw [if_neg hB]
      dsimp only
      exact Or.inl ⟨_, rfl⟩

/-- The sections dict after one parse step: unchanged, extended with one fresh
empty section, or with one line appended to some section. -/
theorem parseStep_sections_shape (urlF : List Char → List (List Char)) (isRes : Bool)
    (st : FullState) (line : List Char) :
    (parseStep urlF isRes st line).ps.sections = st.ps.sections ∨
    (∃ n, ¬ n ∈ dictKeys st.ps.sections ∧
      (parseStep urlF isRes st line).ps.sections = st.ps.sections ++ [(n, [])]) ∨
    (∃ c t, (parseStep urlF isRes st line).ps.sections =
      dictAppendLine st.ps.sections c t) := by
  rw [parseStep]
  by_cases hb : line.all Char.isWhitespace
  · rw [if_pos hb]
    exact Or.inl rfl
  · rw [if_neg hb]
    rcases hm : (if st.newSectionFlag then matchSection line st.ps.sections else none)
      with _ | n
    · by_cases hr : isRes
      · subst hr
        simp only [if_pos rfl]
        rcases updateSections_sections_shape urlF line st.current st.ps with ⟨t, ht⟩ | ⟨n, hn, ht⟩
        · exact Or.inr (Or.inr ⟨st.current, t, ht⟩)
        · exact Or.inr (Or.inl ⟨n, hn, ht⟩)
      · simp only [Bool.not_eq_true] at hr
        rw [hr]
        simp only [Bool.false_eq_true, if_false]
        exact Or.inr (Or.inr ⟨st.current, line, rfl⟩)
    · have hfresh : ¬ n ∈ dictKeys st.ps.sections := by
        by_cases hf : st.newSectionFlag
        · rw [if_pos hf] at hm
          exact matchSection_fresh _ _ n hm
        · rw [if_neg hf] at hm
          exact absurd hm (by simp)
      exact Or.inr (Or.inl ⟨n, hfresh, rfl⟩)

/-- One parse step can only extend a section's recorded lines. -/
theorem parseStep_get_mono (urlF : List Char → List (List Char)) (isRes : Bool)
    (st : FullState) (line k : List Char) (v : List (List Char))
    (h : dictGet st.ps.sections k = some v) :
    ∃ e, dictGet (parseStep urlF isRes st line).ps.sections k = some (v ++ e) := by
  rcases parseStep_sections_shape urlF isRes st line with hs | ⟨n, _, hs⟩ | ⟨c, t, hs⟩
  · exact ⟨[], by rw [hs, List.append_nil]; exact h⟩
  · exact ⟨[], by rw [hs, List.append_nil]; exact dictGet_append_some _ _ k v h⟩
  · rw [hs, dictGet_dictAppendLine, h]
    by_cases hc : c = k
    · exact ⟨[t], by rw [Option.map_some', if_pos hc]⟩
    · exact ⟨[], by rw [Option.map_some', if_neg hc, List.append_nil]⟩

/-- One parse step appends at most one fresh key and keeps the key list
duplicate-free. -/
theorem parseStep_keys (urlF : List Char → List (List Char)) (isRes : Bool)
    (st : FullState) (line : List Char) (hnd : (dictKeys st.ps.sections).Nodup) :
    (∃ nk, dictKeys (parseStep urlF isRes st line).ps.sections =
      dictKeys st.ps.sections ++ nk) ∧
    (dictKeys (parseStep urlF isRes st line).ps.sections).Nodup := by
  rcases parseStep_sections_shape urlF isRes st line with hs | ⟨n, hn, hs⟩ | ⟨c, t, hs⟩
  · rw [hs]
    exact ⟨⟨[], (List.append_nil _).symm⟩, hnd⟩
  · rw [hs]
    refine ⟨⟨[n], by simp [dictKeys]⟩, ?_⟩
    have : dictKeys (st.ps.sections ++ [(n, [])]) = dictKeys st.ps.sections ++ [n] := by
      simp [dictKeys]
    rw [this]
    simp only [List.nodup_append, List.nodup_singleton, true_and]
    refine ⟨hnd, ?_⟩
    intro x hx hxn
    rw [List.mem_singleton] at hxn
    subst hxn
    exact hn hx
  · rw [hs, dictKeys_dictAppendLine]
    exact ⟨⟨[], (List.append_nil _).symm⟩, hnd⟩

theorem foldl_get_mono (urlF : List Char → List (List Char)) (isRes : Bool) :
    ∀ (ls : List (List Char)) (st : FullState) (k : List Char) (v : List (List Char)),
      dictGet st.ps.sections k = some v →
      ∃ e, dictGet ((ls.foldl (parseStep urlF isRes) st).ps.sections) k = some (v ++ e) := by
  intro ls
  induction ls with
  | nil => intro st k v h; exact ⟨[], by rw [List.append_nil]; exact h⟩
  | cons l rest ih =>
    intro st k v h
    obtain ⟨e1, h1⟩ := parseStep_get_mono urlF isRes st l k v h
    obtain ⟨e2, h2⟩ := ih (parseStep urlF isRes st l) k (v ++ e1) h1
    exact ⟨e1 ++ e2, by rw [List.foldl_cons, ← List.append_assoc]; exact h2⟩

theorem foldl_keys (urlF : List Char → List (List Char)) (isRes : Bool) :
    ∀ (ls : List (List Char)) (st : FullState), (dictKeys st.ps.sections).Nodup →
      (∃ nk, dictKeys ((ls.foldl (parseStep urlF isRes) st).ps.sections) =
        dictKeys st.ps.sections ++ nk) ∧
      (dictKeys ((ls.foldl (parseStep urlF isRes) st).ps.sections)).Nodup := by
  intro ls
  induction ls with
  | nil => intro st h; exact ⟨⟨[], (List.append_nil _).symm⟩, h⟩
  | cons l rest ih =>
    intro st h
    obtain ⟨⟨nk1, h1⟩, hnd1⟩ := parseStep_keys urlF isRes st l h
    obtain ⟨⟨nk2, h2⟩, hnd2⟩ := ih (parseStep urlF isRes st l) hnd1
    refine ⟨⟨nk1 ++ nk2, ?_⟩, hnd2⟩
    rw [List.foldl_cons] at *
    rw [h2, h1, List.append_assoc]

/-- C7: during a single `match_parse` pass, whatever sections exist after the
first `i` lines persist to the end of the pass: each such key keeps its
collected lines (only extended, never discarded), the final key list is the
intermediate key list plus later additions, and it is duplicate-free — no
canonical section is ever opened or re-created a second time, even if its
synonyms reappear in later lines. -/
theorem matchParse_section_identity (urlF : List Char → List (List Char))
    (parseString : List Char) (isRes : Bool) (i : Nat) :
    (∀ k v, dictGet (((splitLines parseString).take i).foldl (parseStep urlF isRes)
        initState).ps.sections k = some v →
      ∃ ext, dictGet (matchParse urlF parseString isRes).ps.sections k = some (v ++ ext)) ∧
    (∃ nk, dictKeys (matchParse urlF parseString isRes).ps.sections =
      dictKeys (((splitLines parseString).take i).foldl (parseStep urlF isRes)
        initState).ps.sections ++ nk) ∧
    (dictKeys (matchParse urlF parseString isRes).ps.sections).Nodup := by
  have hsplit : matchParse urlF parseString isRes =
      ((splitLines parseString).drop i).foldl (parseStep urlF isRes)
        (((splitLines parseString).take i).foldl (parseStep urlF isRes) initState) := by
    rw [matchParse, ← List.foldl_append, List.take_append_drop]
  have hinit : (dictKeys initState.ps.sections).Nodup := by
    simp [initState, dictKeys]
  have hmid := foldl_keys urlF isRes ((splitLines parseString).take i) initState hinit
  refine ⟨?_, ?_, ?_⟩
  · intro k v hv
    rw [hsplit]
    exact foldl_get_mono urlF isRes _ _ k v hv
  · rw [hsplit]
    exact (foldl_keys urlF isRes _ _ hmid.2).1
  · rw [hsplit]
    exact (foldl_keys urlF isRes _ _ hmid.2).2

end ResumeOpt
